import Mathlib

set_option maxRecDepth 8192

/-!
Verification development for the line sorter in src/main.rs.

Modelling conventions:
* A Rust String / &str is modelled as a List Char (Lean Char and Rust char are both
  Unicode scalar values).  UTF-8 byte positions are recovered with utf8Size / byteLen.
* Rust f64 is modelled by the inductive type F64 below: NaN, the two infinities, and
  finite values.  A finite value is carried exactly as a scaled decimal, a pair
  m : ℤ, e : ℕ denoting the rational m / 10^e (F64.ratVal); every float this program
  ever builds comes from a decimal literal, an exponent shift, or a multiplication by
  a power of ten, so this captures the parsed values exactly.  Decimal-to-double
  rounding is monotone and no claim below distinguishes two decimal strings that
  round to the same double, so order-theoretic statements transfer to the exact
  model.  Comparisons are by value (cross multiplication), not by representation.
* A Rust panic is modelled as the value none of an Option-returning function.
* Vec::sort_unstable_by is modelled as a comparator-driven insertion sort with panic
  propagation.  For a comparator that never returns none both perform an arbitrary
  reordering that is sorted w.r.t. the comparator, which is the only property the
  claims use (the sort is documented as unstable); when some comparison of two
  elements returns none, both panic, since every element of a slice of length at
  least two takes part in at least one comparison.
-/

/-- Numerator of the minimum finite double, Rust f64::MIN = -(2^53 - 1) * 2^971,
an exact integer, written as a literal so that it evaluates fast; the theorem
f64MINm_eq below certifies the literal. -/
def f64MINm : ℤ := -179769313486231570814527423731704356798070567525844996598917476803157260780028538760589558632766878171540458953514382464234321326889464182768467546703537516986049910576551282076245490090389328944075868508455133942304583236903222948165808559332123348274797826204144723168738177180919299881250404026184124858368

/-- The literal above is exactly -(2^53 - 1) * 2^971, the minimum finite double. -/
theorem f64MINm_eq : f64MINm = -((2 ^ 53 - 1) * 2 ^ 971) := by norm_num [f64MINm]

/-- Model of the f64 values reachable in this program: NaN, negative infinity,
finite scaled decimals m / 10^e (see the header comment), positive infinity. -/
inductive F64 where
  | nan : F64
  | neginf : F64
  | finite : ℤ → ℕ → F64
  | posinf : F64
deriving DecidableEq

/-- The f64::MIN sentinel as an F64. -/
def f64MIN : F64 := F64.finite f64MINm 0

/-- Rational value of a finite F64 (used only to state value-level claims; the
executable code below never needs it). -/
def F64.ratVal : F64 → Option ℚ
  | .finite m e => some ((m : ℚ) / 10 ^ e)
  | _ => none

/-- Rust f64::partial_cmp: none exactly when one side is NaN, otherwise the total
order neginf < finite (by rational value, compared by cross multiplication)
< posinf. -/
def F64.partialCmp : F64 → F64 → Option Ordering
  | .nan, _ => none
  | _, .nan => none
  | .neginf, .neginf => some Ordering.eq
  | .neginf, _ => some Ordering.lt
  | _, .neginf => some Ordering.gt
  | .posinf, .posinf => some Ordering.eq
  | .finite _ _, .posinf => some Ordering.lt
  | .posinf, .finite _ _ => some Ordering.gt
  | .finite m1 e1, .finite m2 e2 =>
      if m1 * 10 ^ e2 < m2 * 10 ^ e1 then some Ordering.lt
      else if m2 * 10 ^ e1 < m1 * 10 ^ e2 then some Ordering.gt
      else some Ordering.eq

/-- Rust < on f64 (PartialOrd::lt): true exactly when partial_cmp returns Less;
in particular any comparison involving NaN is false. -/
def F64.lt (a b : F64) : Bool := decide (a.partialCmp b = some Ordering.lt)

/-- Multiplication of an f64 by a positive integer constant (1000, 1000000,
1000000000 in parse_with_suffix).  NaN and the infinities absorb. -/
def F64.scale (v : F64) (k : ℤ) : F64 :=
  match v with
  | .nan => .nan
  | .neginf => .neginf
  | .posinf => .posinf
  | .finite m e => .finite (m * k) e

/-- Numeric value of one decimal digit character. -/
def digitVal (c : Char) : ℕ := c.toNat - 48

/-- Value of a list of decimal digit characters read in base 10. -/
def natOfDigits (l : List Char) : ℕ := l.foldl (fun a c => 10 * a + digitVal c) 0

/-- Apply a decimal exponent to a scaled decimal: multiplication by 10^(sgn * k). -/
def applyExp (m : ℤ) (e : ℕ) (sgn : ℤ) (k : ℕ) : ℤ × ℕ :=
  if 0 ≤ sgn then (m * 10 ^ k, e) else (m, e + k)

/-- Tail of Rust's float grammar after the mantissa: either the end of the string or
an exponent part (e | E) (+ | -)? digit+, case-insensitive, nothing after it. -/
def parseExpTail (m : ℤ) (e : ℕ) (l : List Char) : Option (ℤ × ℕ) :=
  match l with
  | [] => some (m, e)
  | c :: r =>
    if c = 'e' ∨ c = 'E' then
      let sd : ℤ × List Char :=
        match r with
        | '+' :: t => (1, t)
        | '-' :: t => (-1, t)
        | t => (1, t)
      if sd.2 ≠ [] ∧ sd.2.all Char.isDigit = true then
        some (applyExp m e sd.1 (natOfDigits sd.2))
      else none
    else none

/-- Unsigned number of Rust's f64 grammar as a scaled decimal:
digit+ ( . digit* )? exp?  or  . digit+ exp?  (at least one mantissa digit). -/
def parseNumber (l : List Char) : Option (ℤ × ℕ) :=
  let intD := l.takeWhile Char.isDigit
  let rest := l.dropWhile Char.isDigit
  match rest with
  | '.' :: r =>
    let fracD := r.takeWhile Char.isDigit
    let rest2 := r.dropWhile Char.isDigit
    if intD = [] ∧ fracD = [] then none
    else
      parseExpTail ((natOfDigits intD * 10 ^ fracD.length + natOfDigits fracD : ℕ) : ℤ)
        fracD.length rest2
  | _ => if intD = [] then none else parseExpTail ((natOfDigits intD : ℕ) : ℤ) 0 rest

/-- Rust str::parse::<f64> (FromStr for f64): an optional sign followed by,
case-insensitively, inf, infinity, nan, or a number per parseNumber.  Note that the
grammar really does accept nan (producing NaN) and inf / infinity. -/
def parseF64 (l : List Char) : Option F64 :=
  let sb : Bool × List Char :=
    match l with
    | '+' :: t => (false, t)
    | '-' :: t => (true, t)
    | t => (false, t)
  let low := sb.2.map Char.toLower
  if low = ['i', 'n', 'f'] ∨ low = ['i', 'n', 'f', 'i', 'n', 'i', 't', 'y'] then
    some (if sb.1 then F64.neginf else F64.posinf)
  else if low = ['n', 'a', 'n'] then some F64.nan
  else
    match parseNumber sb.2 with
    | some me => some (F64.finite (if sb.1 then -me.1 else me.1) me.2)
    | none => none

/-- Rust char::is_whitespace: the Unicode White_Space property, written out as the
explicit list of code points. -/
def rustWS (c : Char) : Bool :=
  decide (c.toNat = 9 ∨ c.toNat = 10 ∨ c.toNat = 11 ∨ c.toNat = 12 ∨ c.toNat = 13 ∨
    c.toNat = 32 ∨ c.toNat = 133 ∨ c.toNat = 160 ∨ c.toNat = 5760 ∨
    (8192 ≤ c.toNat ∧ c.toNat ≤ 8202) ∨ c.toNat = 8232 ∨ c.toNat = 8233 ∨
    c.toNat = 8239 ∨ c.toNat = 8287 ∨ c.toNat = 12288)

/-- Worker for splitWS; acc holds the characters of the current token, reversed. -/
def splitWSGo : List Char → List Char → List (List Char)
  | [], acc => if acc = [] then [] else [acc.reverse]
  | c :: r, acc =>
    if rustWS c then
      if acc = [] then splitWSGo r [] else acc.reverse :: splitWSGo r []
    else splitWSGo r (c :: acc)

/-- Rust str::split_whitespace collected to a list: split on runs of whitespace,
discarding empty tokens. -/
def splitWS (l : List Char) : List (List Char) := splitWSGo l []

/-- Iterator::nth on a list (0-based), written with an explicit length test so that
it evaluates quickly even at huge indices. -/
def nthOpt {α : Type} (l : List α) (n : ℕ) : Option α :=
  if h : n < l.length then some (l.get ⟨n, h⟩) else none

/-- The index computed by the Rust expression col - 1 on usize, i.e. subtraction
wrapping modulo 2^64 (release-profile semantics: overflow checks off).  The -k value
is parsed from a decimal usize, hence col < 2^64 always holds at the call site. -/
def usizeIdx (col : ℕ) : ℕ := (col + (2 ^ 64 - 1)) % 2 ^ 64

/-- get_column_value from src/main.rs: with no column the whole line; with column
col, the token at 0-based index col - 1 (usize subtraction) of the whitespace split,
falling back to the whole line when that token does not exist. -/
def get_column_value (line : List Char) (column : Option ℕ) : List Char :=
  match column with
  | none => line
  | some col => (nthOpt (splitWS line) (usizeIdx col)).getD line

/-- Number of bytes of the UTF-8 encoding of one scalar value. -/
def utf8Size (c : Char) : ℕ :=
  if c.toNat < 128 then 1 else if c.toNat < 2048 then 2 else if c.toNat < 65536 then 3 else 4

/-- Rust str::len: the length in bytes of the UTF-8 encoding. -/
def byteLen (s : List Char) : ℕ := (s.map utf8Size).sum

/-- parse_with_suffix from src/main.rs.  len is the byte length.  Empty string:
the f64::MIN sentinel.  Byte length 1 (a single ASCII character): plain parse with
the sentinel on failure.  Otherwise the code slices at byte position len - 1; when
the final character is a single byte this splits off exactly that character, parses
the front as f64 with fallback 0.0 and scales by K/M/G; when the final character is
multi-byte, byte position len - 1 is inside that character and the slice panics
(modelled as none). -/
def parse_with_suffix (s : List Char) : Option F64 :=
  if byteLen s = 0 then some f64MIN
  else if byteLen s = 1 then some ((parseF64 s).getD f64MIN)
  else
    match s.getLast? with
    | none => none
    | some c =>
      if utf8Size c = 1 then
        let np := (parseF64 s.dropLast).getD (F64.finite 0 0)
        some (if c = 'K' ∨ c = 'k' then np.scale 1000
              else if c = 'M' ∨ c = 'm' then np.scale 1000000
              else if c = 'G' ∨ c = 'g' then np.scale 1000000000
              else np)
      else none

/-- The MONTHS constant from src/main.rs. -/
def MONTHS : List (List Char) :=
  [['J', 'a', 'n'], ['F', 'e', 'b'], ['M', 'a', 'r'], ['A', 'p', 'r'],
   ['M', 'a', 'y'], ['J', 'u', 'n'], ['J', 'u', 'l'], ['A', 'u', 'g'],
   ['S', 'e', 'p'], ['O', 'c', 't'], ['N', 'o', 'v'], ['D', 'e', 'c']]

/-- Whether the first list is an initial segment of the second. -/
def leadsWith : List Char → List Char → Bool
  | [], _ => true
  | _ :: _, [] => false
  | a :: as, b :: bs => a = b && leadsWith as bs

/-- Rust str::contains with a string pattern: the needle occurs contiguously
somewhere in the haystack. -/
def containsSub (needle : List Char) : List Char → Bool
  | [] => leadsWith needle []
  | c :: t => leadsWith needle (c :: t) || containsSub needle t

/-- Iterator::position over a list of candidate months with running index. -/
def monthScan (s : List Char) : List (List Char) → ℕ → ℕ
  | [], _ => 13
  | m :: ms, i => if containsSub m s then i else monthScan s ms (i + 1)

/-- The month key of src/main.rs: position of the first month abbreviation contained
in the key, with unwrap_or(13) when none is contained. -/
def monthPos (s : List Char) : ℕ := monthScan s MONTHS 0

/-- Comparison key of sort_by_numeric / check_sorted_by_numeric: the extracted
column parsed as f64 with fallback f64::MIN. -/
def numKey (line : List Char) (col : Option ℕ) : F64 :=
  (parseF64 (get_column_value line col)).getD f64MIN

/-- Comparison key of sort_by_month / check_sorted_by_month. -/
def monthKey (line : List Char) (col : Option ℕ) : ℕ := monthPos (get_column_value line col)

/-- Comparison key of sort_by_suffix / check_sorted_by_suffix; none models a panic
inside parse_with_suffix. -/
def suffixKeyP (line : List Char) (col : Option ℕ) : Option F64 :=
  parse_with_suffix (get_column_value line col)

/-- The comparator closure of sort_by_numeric: partial_cmp of the two numeric keys;
none models the panic of unwrap. -/
def numCmp (col : Option ℕ) (a b : List Char) : Option Ordering :=
  F64.partialCmp (numKey a col) (numKey b col)

/-- The comparator closure of sort_by_suffix: parse both keys (propagating a slice
panic), then partial_cmp (none on NaN models the unwrap panic). -/
def suffixCmp (col : Option ℕ) (a b : List Char) : Option Ordering :=
  match suffixKeyP a col, suffixKeyP b col with
  | some x, some y => F64.partialCmp x y
  | _, _ => none

/-- Insertion step of the sort model: walk the already sorted list, propagating an
incomparable pair (none) as a panic. -/
def insertPC {α : Type} (cmp : α → α → Option Ordering) (x : α) : List α → Option (List α)
  | [] => some [x]
  | y :: ys =>
    match cmp x y with
    | none => none
    | some Ordering.gt =>
      match insertPC cmp x ys with
      | none => none
      | some out => some (y :: out)
    | some _ => some (x :: y :: ys)

/-- Model of Vec::sort_unstable_by, see the header comment: comparator-driven
insertion sort with panic propagation. -/
def sortPC {α : Type} (cmp : α → α → Option Ordering) : List α → Option (List α)
  | [] => some []
  | x :: xs =>
    match sortPC cmp xs with
    | none => none
    | some mid => insertPC cmp x mid

/-- Insertion step for a total boolean ordering (sort_unstable_by_key). -/
def insertLe {α : Type} (le : α → α → Bool) (x : α) : List α → List α
  | [] => [x]
  | y :: ys => if le x y then x :: y :: ys else y :: insertLe le x ys

/-- Model of Vec::sort_unstable_by_key for a total key order. -/
def sortLe {α : Type} (le : α → α → Bool) : List α → List α
  | [] => []
  | x :: xs => insertLe le x (sortLe le xs)

/-- sort_by_numeric from src/main.rs; none models a comparator panic. -/
def sort_by_numeric (lines : List (List Char)) (col : Option ℕ) : Option (List (List Char)) :=
  sortPC (numCmp col) lines

/-- sort_by_month from src/main.rs (usize keys, never panics). -/
def sort_by_month (lines : List (List Char)) (col : Option ℕ) : List (List Char) :=
  sortLe (fun a b => decide (monthKey a col ≤ monthKey b col)) lines

/-- sort_by_suffix from src/main.rs; none models a comparator panic. -/
def sort_by_suffix (lines : List (List Char)) (col : Option ℕ) : Option (List (List Char)) :=
  sortPC (suffixCmp col) lines

/-- Byte-lexicographic order of Rust String Ord; on UTF-8, byte order coincides with
scalar-value order, so it is character-lexicographic here. -/
def lexLe : List Char → List Char → Bool
  | [], _ => true
  | _ :: _, [] => false
  | a :: as, b :: bs => if a < b then true else if b < a then false else lexLe as bs

/-- sort_by_string from src/main.rs. -/
def sort_by_string (lines : List (List Char)) (col : Option ℕ) : List (List Char) :=
  sortLe (fun a b => lexLe (get_column_value a col) (get_column_value b col)) lines

/-- Adjacent-pair scan of the check_sorted_by_* functions: bad prev cur is the loop
body's failure test; the scan returns false at the first failing pair. -/
def checkPairs {α : Type} (bad : α → α → Bool) : List α → Bool
  | a :: b :: t => !bad a b && checkPairs bad (b :: t)
  | _ => true

/-- check_sorted_by_numeric from src/main.rs. -/
def check_sorted_by_numeric (lines : List (List Char)) (col : Option ℕ) (rev : Bool) : Bool :=
  checkPairs
    (fun p c => if rev then F64.lt (numKey p col) (numKey c col)
                else F64.lt (numKey c col) (numKey p col)) lines

/-- check_sorted_by_month from src/main.rs. -/
def check_sorted_by_month (lines : List (List Char)) (col : Option ℕ) (rev : Bool) : Bool :=
  checkPairs
    (fun p c => if rev then decide (monthKey p col < monthKey c col)
                else decide (monthKey c col < monthKey p col)) lines

/-- Adjacent-pair scan with a possibly panicking body; mirrors the early return:
a pair that fails the order stops the scan before later pairs are parsed. -/
def checkPairsP {α : Type} (bad : α → α → Option Bool) : List α → Option Bool
  | a :: b :: t =>
    match bad a b with
    | none => none
    | some true => some false
    | some false => checkPairsP bad (b :: t)
  | _ => some true

/-- Loop body test of check_sorted_by_suffix: parse both keys (a multi-byte final
character panics, modelled none), then the strict comparison per direction. -/
def suffixBad (col : Option ℕ) (rev : Bool) (p c : List Char) : Option Bool :=
  match suffixKeyP c col, suffixKeyP p col with
  | some vc, some vp => some (if rev then F64.lt vp vc else F64.lt vc vp)
  | _, _ => none

/-- check_sorted_by_suffix from src/main.rs; none models a panic inside
parse_with_suffix. -/
def check_sorted_by_suffix (lines : List (List Char)) (col : Option ℕ) (rev : Bool) :
    Option Bool :=
  checkPairsP (suffixBad col rev) lines

/-- Check-mode behaviour of main for the default (lexicographic) mode: no ordering
flag is set, so the sorted variable keeps its initial value true; there is no
check_sorted_by_string function in the source. -/
def checkSortedByStringMain (_lines : List (List Char)) (_col : Option ℕ) (_rev : Bool) :
    Bool := true

/-- Worker for dedupAdj: a is the last kept element. -/
def dedupGo {α : Type} [DecidableEq α] (a : α) : List α → List α
  | [] => [a]
  | b :: t => if a = b then dedupGo a t else a :: dedupGo b t

/-- Vec::dedup: remove each element equal to its immediate predecessor, keeping the
first element of every run of equals. -/
def dedupAdj {α : Type} [DecidableEq α] : List α → List α
  | [] => []
  | a :: t => dedupGo a t

/-- Join with a newline separator, as lines.join of the write in main. -/
def joinNL : List (List Char) → List Char
  | [] => []
  | [a] => a
  | a :: t => a ++ '\n' :: joinNL t

/-- Mode dispatch of the sort branch of main: numeric, else month, else suffix,
else string. -/
def modeSort (numeric month suffix : Bool) (lines : List (List Char)) (col : Option ℕ) :
    Option (List (List Char)) :=
  if numeric then sort_by_numeric lines col
  else if month then some (sort_by_month lines col)
  else if suffix then sort_by_suffix lines col
  else some (sort_by_string lines col)

/-- Output file name of main: the fixed seven characters sorted_ prepended to the
input file name. -/
def sortedName (fname : List Char) : List Char :=
  ['s', 'o', 'r', 't', 'e', 'd', '_'] ++ fname

/-- The sort branch of main, lines 212-231 of src/main.rs: mode sort, then dedup if
-u, then reverse if -r, then write the newline-joined lines to the file named by
sortedName.  The result is the written file as a name-content pair; none models a
comparator panic. -/
def mainSortRun (numeric month suffix unique reverse : Bool) (fname : List Char)
    (lines : List (List Char)) (col : Option ℕ) : Option (List Char × List Char) :=
  (modeSort numeric month suffix lines col).map (fun l0 =>
    let l1 := if unique then dedupAdj l0 else l0
    let l2 := if reverse then l1.reverse else l1
    (sortedName fname, joinNL l2))

/-- Modelled from the spec: the adjacent dedup keeps the first line and afterwards
exactly those lines that differ from their immediate predecessor in the current
order (pairing every later element with its predecessor via zip). -/
def specDedup {α : Type} [DecidableEq α] : List α → List α
  | [] => []
  | x :: xs => x :: ((xs.zip (x :: xs)).filter (fun p => decide (p.1 ≠ p.2))).map Prod.fst

/-- Modelled from the spec: run the Sort form, then optionally collapse
immediately-adjacent duplicate lines, then optionally reverse the entire sequence,
then write the lines joined by newline under the prefixed output name. -/
def specSortRun (numeric month suffix unique reverse : Bool) (fname : List Char)
    (lines : List (List Char)) (col : Option ℕ) : Option (List Char × List Char) :=
  (modeSort numeric month suffix lines col).map (fun l0 =>
    let l1 := if unique then specDedup l0 else l0
    let l2 := if reverse then l1.reverse else l1
    (sortedName fname, joinNL l2))

/-- Adjacent-pair invariant established by the sorts: the comparator answered
Less or Equal on the pair. -/
def cmpOk {α : Type} (cmp : α → α → Option Ordering) (a b : α) : Prop :=
  cmp a b = some Ordering.lt ∨ cmp a b = some Ordering.eq

/-- Suffix key with an arbitrary default, used only to state properties under the
hypothesis that every key parses (where the default is never consulted). -/
def suffixKeyD (line : List Char) (col : Option ℕ) : F64 :=
  (suffixKeyP line col).getD F64.nan

/-- The boolean flags of the command line (the -k value and the file name are
handled separately). -/
structure Flags where
  n : Bool
  r : Bool
  u : Bool
  M : Bool
  b : Bool
  c : Bool
  h : Bool

/-- The clap validity rules declared in main: -n conflicts with -M and -h, -M
conflicts with -h, and -c requires -M, -h and -n all present.  clap rejects the
command line before any of the sorting or checking code runs. -/
def argsValid (f : Flags) : Bool :=
  !(f.n && f.M) && !(f.n && f.h) && !(f.M && f.h) && (!f.c || (f.M && f.h && f.n))

example : parseF64 ['4', '2'] = some (F64.finite 42 0) := by decide
example : parseF64 ['-', '3', '.', '5'] = some (F64.finite (-35) 1) := by decide
example : parseF64 ['a', 'b', 'c'] = none := by decide
example : parseF64 ['n', 'a', 'n'] = some F64.nan := by decide
example : parseF64 ['-', 'i', 'n', 'f'] = some F64.neginf := by decide
example : parseF64 ['1', '.', 'e', '3'] = some (F64.finite 1000 0) := by decide
example : parseF64 ['.', '5'] = some (F64.finite 5 1) := by decide
example : parseF64 ['.'] = none := by decide
example : parseF64 ['1', 'e'] = none := by decide
example : parseF64 ['2', 'e', '-', '2'] = some (F64.finite 2 2) := by decide
example : parse_with_suffix ['5', 'K'] = some (F64.finite 5000 0) := by decide
example : parse_with_suffix ['2', '.', '5', 'M'] = some (F64.finite 25000000 1) := by decide
example : parse_with_suffix [] = some f64MIN := by decide
example : parse_with_suffix ['9'] = some (F64.finite 9 0) := by decide
example : parse_with_suffix ['7', 'X'] = some (F64.finite 7 0) := by decide
example : parse_with_suffix [Char.ofNat 233] = none := by decide
example : parse_with_suffix ['5', Char.ofNat 233] = none := by decide
example : (F64.finite 25000000 1).ratVal = some (2500000 : ℚ) := by
  norm_num [F64.ratVal]
example : monthPos ['S', 'e', 'p', ' ', '2', '0', '2', '1'] = 8 := by decide
example : monthPos ['n', 'o', ' ', 'm', 'o', 'n', 't', 'h'] = 13 := by decide
example : get_column_value ['a', ' ', 'b', ' ', 'c'] (some 2) = ['b'] := by decide
example : get_column_value ['a', ' ', 'b', ' ', 'c'] (some 5) = ['a', ' ', 'b', ' ', 'c'] := by
  decide
example : get_column_value ['a', ' ', 'b'] (some 0) = ['a', ' ', 'b'] := by decide
example : sort_by_numeric [['n', 'a', 'n'], ['1']] none = none := by decide
example : sort_by_numeric [['-', 'i', 'n', 'f'], ['a', 'b', 'c']] none =
    some [['-', 'i', 'n', 'f'], ['a', 'b', 'c']] := by decide
example : dedupAdj [['a'], ['a'], ['b'], ['a']] = [['a'], ['b'], ['a']] := by decide
example : specDedup [['a'], ['a'], ['b'], ['a']] = [['a'], ['b'], ['a']] := by decide
example : check_sorted_by_suffix [['5', Char.ofNat 233], ['1']] none false = none := by decide
example : sort_by_suffix [['1', '0', 'K'], ['3'], ['1', 'M'], ['5', '0', '0']] none =
    some [['3'], ['5', '0', '0'], ['1', '0', 'K'], ['1', 'M']] := by decide

/-! Order facts about the F64 comparison. -/

/-- Helper for the three-way integer comparison at the heart of partialCmp. -/
theorem cmp3_gt_iff (A B : ℤ) :
    (if A < B then some Ordering.lt else if B < A then some Ordering.gt
      else some Ordering.eq) = some Ordering.gt ↔
    (if B < A then some Ordering.lt else if A < B then some Ordering.gt
      else some Ordering.eq) = some Ordering.lt := by
  split_ifs <;> first | omega | simp_all

/-- Swapping the arguments of partial_cmp turns Greater into Less. -/
theorem F64.partialCmp_gt_iff (a b : F64) :
    a.partialCmp b = some Ordering.gt ↔ b.partialCmp a = some Ordering.lt := by
  cases a <;> cases b <;> first
    | exact cmp3_gt_iff _ _
    | simp [F64.partialCmp]

/-- partial_cmp returns none exactly when one operand is NaN. -/
theorem F64.partialCmp_none_iff (a b : F64) :
    a.partialCmp b = none ↔ a = F64.nan ∨ b = F64.nan := by
  cases a <;> cases b <;> simp [F64.partialCmp] <;> split_ifs <;> simp

/-! Characterization of the adjacent-pair scans. -/

/-- The scan succeeds exactly when no adjacent pair fails the body test. -/
theorem checkPairs_iff {α : Type} (bad : α → α → Bool) :
    ∀ l : List α, checkPairs bad l = true ↔
      ∀ i a b, l.get? i = some a → l.get? (i + 1) = some b → bad a b = false
  | [] => by simp [checkPairs]
  | [x] => by simp [checkPairs]
  | a :: b :: t => by
    have ih := checkPairs_iff bad (b :: t)
    simp only [checkPairs, Bool.and_eq_true, Bool.not_eq_true']
    constructor
    · rintro ⟨hab, hrest⟩ i x y hx hy
      cases i with
      | zero =>
        simp only [List.get?_cons_zero, Option.some.injEq] at hx
        simp only [List.get?_cons_succ, List.get?_cons_zero, Option.some.injEq] at hy
        subst hx; subst hy; exact hab
      | succ n =>
        exact (ih.mp hrest) n x y (by simpa using hx) (by simpa using hy)
    · intro h
      refine ⟨h 0 a b rfl rfl, ih.mpr ?_⟩
      intro n x y hx hy
      exact h (n + 1) x y (by simpa using hx) (by simpa using hy)

/-- The scan succeeds on any list whose adjacent pairs all pass the body test. -/
theorem checkPairs_of_chain {α : Type} (bad : α → α → Bool) :
    ∀ l : List α, List.Chain' (fun a b => bad a b = false) l → checkPairs bad l = true
  | [] => fun _ => rfl
  | [_] => fun _ => rfl
  | a :: b :: t => fun h => by
    rcases List.chain'_cons.mp h with ⟨hab, ht⟩
    simp [checkPairs, hab, checkPairs_of_chain bad (b :: t) ht]

/-- The panicking scan succeeds on any list whose adjacent pairs all pass. -/
theorem checkPairsP_of_chain {α : Type} (bad : α → α → Option Bool) :
    ∀ l : List α, List.Chain' (fun a b => bad a b = some false) l →
      checkPairsP bad l = some true
  | [] => fun _ => rfl
  | [_] => fun _ => rfl
  | a :: b :: t => fun h => by
    rcases List.chain'_cons.mp h with ⟨hab, ht⟩
    simp [checkPairsP, hab, checkPairsP_of_chain bad (b :: t) ht]

/-! The insertion-sort model produces lists sorted for the comparator. -/

/-- Inserting into a comparator-sorted list keeps it comparator-sorted, and the
head of the result is the inserted element or the former head. -/
theorem insertPC_ok {α : Type} (cmp : α → α → Option Ordering)
    (hflip : ∀ a b, cmp a b = some Ordering.gt → cmp b a = some Ordering.lt) (x : α) :
    ∀ l out, List.Chain' (cmpOk cmp) l → insertPC cmp x l = some out →
      List.Chain' (cmpOk cmp) out ∧ (out.head? = some x ∨ out.head? = l.head?)
  | [], out, _, hins => by
    simp only [insertPC, Option.some.injEq] at hins
    subst hins
    exact ⟨List.chain'_singleton x, Or.inl rfl⟩
  | y :: ys, out, hch, hins => by
    rcases hcmp : cmp x y with _ | o
    · simp only [insertPC, hcmp] at hins
      exact Option.noConfusion hins
    · cases o with
      | lt =>
        simp only [insertPC, hcmp, Option.some.injEq] at hins
        subst hins
        exact ⟨List.chain'_cons.mpr ⟨Or.inl hcmp, hch⟩, Or.inl rfl⟩
      | eq =>
        simp only [insertPC, hcmp, Option.some.injEq] at hins
        subst hins
        exact ⟨List.chain'_cons.mpr ⟨Or.inr hcmp, hch⟩, Or.inl rfl⟩
      | gt =>
        rcases hrec : insertPC cmp x ys with _ | out'
        · simp only [insertPC, hcmp, hrec] at hins
          exact Option.noConfusion hins
        · simp only [insertPC, hcmp, hrec, Option.some.injEq] at hins
          subst hins
          have hys := List.chain'_cons'.mp hch
          obtain ⟨hc', hhd⟩ := insertPC_ok cmp hflip x ys out' hys.2 hrec
          refine ⟨List.chain'_cons'.mpr ⟨?_, hc'⟩, Or.inr rfl⟩
          intro z hz
          rcases hhd with h1 | h2
          · rw [h1] at hz
            simp only [Option.mem_def, Option.some.injEq] at hz
            subst hz
            exact Or.inl (hflip x y hcmp)
          · rw [h2] at hz
            exact hys.1 z hz

/-- Any successful run of the sort model returns a comparator-sorted list. -/
theorem sortPC_ok {α : Type} (cmp : α → α → Option Ordering)
    (hflip : ∀ a b, cmp a b = some Ordering.gt → cmp b a = some Ordering.lt) :
    ∀ l out, sortPC cmp l = some out → List.Chain' (cmpOk cmp) out
  | [], out, h => by
    simp only [sortPC, Option.some.injEq] at h
    subst h
    exact List.chain'_nil
  | x :: xs, out, h => by
    rcases hmid : sortPC cmp xs with _ | mid
    · simp only [sortPC, hmid] at h
      exact Option.noConfusion h
    · simp only [sortPC, hmid] at h
      exact (insertPC_ok cmp hflip x mid out (sortPC_ok cmp hflip xs mid hmid) h).1

/-- Inserting into a le-sorted list keeps it le-sorted (total boolean order). -/
theorem insertLe_ok {α : Type} (le : α → α → Bool)
    (htot : ∀ a b, le a b = false → le b a = true) (x : α) :
    ∀ l, List.Chain' (fun a b => le a b = true) l →
      List.Chain' (fun a b => le a b = true) (insertLe le x l) ∧
        ((insertLe le x l).head? = some x ∨ (insertLe le x l).head? = l.head?)
  | [], _ => ⟨List.chain'_singleton x, Or.inl rfl⟩
  | y :: ys, hch => by
    rcases hxy : le x y with _ | _
    · simp only [insertLe, hxy, Bool.false_eq_true, if_false]
      have hys := List.chain'_cons'.mp hch
      obtain ⟨hc', hhd⟩ := insertLe_ok le htot x ys hys.2
      refine ⟨List.chain'_cons'.mpr ⟨?_, hc'⟩, Or.inr rfl⟩
      intro z hz
      rcases hhd with h1 | h2
      · rw [h1] at hz
        simp only [Option.mem_def, Option.some.injEq] at hz
        subst hz
        exact htot x y hxy
      · rw [h2] at hz
        exact hys.1 z hz
    · simp only [insertLe, hxy, if_true]
      exact ⟨List.chain'_cons.mpr ⟨hxy, hch⟩, Or.inl rfl⟩

/-- The key-order sort model always returns a le-sorted list. -/
theorem sortLe_ok {α : Type} (le : α → α → Bool)
    (htot : ∀ a b, le a b = false → le b a = true) :
    ∀ l, List.Chain' (fun a b => le a b = true) (sortLe le l)
  | [] => List.chain'_nil
  | x :: xs => (insertLe_ok le htot x (sortLe le xs) (sortLe_ok le htot xs)).1

/-! Bridges from comparator-sortedness to the check functions. -/

/-- Swap rule for the numeric comparator. -/
theorem numCmp_gt_iff (col : Option ℕ) (a b : List Char) :
    numCmp col a b = some Ordering.gt ↔ numCmp col b a = some Ordering.lt :=
  F64.partialCmp_gt_iff _ _

/-- Swap rule for the suffix comparator. -/
theorem suffixCmp_flip (col : Option ℕ) (a b : List Char) :
    suffixCmp col a b = some Ordering.gt → suffixCmp col b a = some Ordering.lt := by
  intro h
  rcases ha : suffixKeyP a col with _ | va <;> rcases hb : suffixKeyP b col with _ | vb <;>
    simp only [suffixCmp, ha, hb] at h ⊢ <;>
    first
      | exact Option.noConfusion h
      | exact (F64.partialCmp_gt_iff _ _).mp h

/-- A list sorted for the numeric comparator passes the ascending numeric check. -/
theorem check_num_asc_of_chain (col : Option ℕ) (out : List (List Char))
    (hch : List.Chain' (cmpOk (numCmp col)) out) :
    check_sorted_by_numeric out col false = true := by
  apply checkPairs_of_chain
  refine hch.imp ?_
  intro a b hab
  show F64.lt (numKey b col) (numKey a col) = false
  simp only [F64.lt, decide_eq_false_iff_not]
  intro hlt
  have hgt : numCmp col a b = some Ordering.gt := (numCmp_gt_iff col a b).mpr hlt
  rcases hab with h | h <;> rw [h] at hgt <;> simp at hgt

/-- A list sorted for the suffix comparator passes the ascending suffix check. -/
theorem check_suffix_asc_of_chain (col : Option ℕ) (out : List (List Char))
    (hch : List.Chain' (cmpOk (suffixCmp col)) out) :
    check_sorted_by_suffix out col false = some true := by
  apply checkPairsP_of_chain
  refine hch.imp ?_
  intro a b hab
  rcases ha : suffixKeyP a col with _ | va <;> rcases hb : suffixKeyP b col with _ | vb <;>
    rcases hab with h | h <;> simp only [suffixCmp, ha, hb] at h <;>
    try exact Option.noConfusion h
  all_goals
    simp only [suffixBad, ha, hb, Option.some.injEq]
    show F64.lt vb va = false
    simp only [F64.lt, decide_eq_false_iff_not]
    intro hlt
    have hgt := (F64.partialCmp_gt_iff va vb).mpr hlt
    rw [h] at hgt
    simp at hgt

/-- A list sorted for the month key passes the ascending month check. -/
theorem check_month_asc_of_chain (col : Option ℕ) (out : List (List Char))
    (hch : List.Chain' (fun a b => decide (monthKey a col ≤ monthKey b col) = true) out) :
    check_sorted_by_month out col false = true := by
  apply checkPairs_of_chain
  refine hch.imp ?_
  intro a b hab
  show decide (monthKey b col < monthKey a col) = false
  simp only [decide_eq_true_eq] at hab
  simp only [decide_eq_false_iff_not]
  omega

/-- C1 (amended): for every sequence of lines and every column choice, whenever the
Sort form of a mode returns at all, the Check form of the same mode with
reversed = false returns true on the result; the Month sort and the (trivial)
Lexicographic check-mode verdict always return and always pass.  (As literally
stated the claim fails: the numeric and suffix sorts do not return on a key that
parses to NaN, see the counterexample.) -/
theorem C1_sort_then_check (lines : List (List Char)) (col : Option ℕ) :
    (∀ out, sort_by_numeric lines col = some out →
      check_sorted_by_numeric out col false = true) ∧
    (check_sorted_by_month (sort_by_month lines col) col false = true) ∧
    (∀ out, sort_by_suffix lines col = some out →
      check_sorted_by_suffix out col false = some true) ∧
    (checkSortedByStringMain (sort_by_string lines col) col false = true) := by
  refine ⟨?_, ?_, ?_, rfl⟩
  · intro out h
    exact check_num_asc_of_chain col out
      (sortPC_ok _ (fun a b => (numCmp_gt_iff col a b).mp) lines out h)
  · apply check_month_asc_of_chain
    apply sortLe_ok
    intro a b hab
    simp only [decide_eq_false_iff_not, not_le] at hab
    simp only [decide_eq_true_eq]
    omega
  · intro out h
    exact check_suffix_asc_of_chain col out
      (sortPC_ok _ (suffixCmp_flip col) lines out h)

/-- C1 counterexample: with the key nan (which Rust parses to NaN) the numeric sort
panics (returns no result), so sorting then checking does not return true on every
sequence as the claim states. -/
theorem C1_cex :
    sort_by_numeric [['n', 'a', 'n'], ['1']] none = none ∧
    (sort_by_numeric [['n', 'a', 'n'], ['1']] none).map
      (fun out => check_sorted_by_numeric out none false) ≠ some true := by decide

/-- Witness for C1_sort_then_check at a concrete input. -/
theorem C1_sort_then_check_witness :
    check_sorted_by_numeric [['1'], ['2']] none false = true :=
  (C1_sort_then_check [['2'], ['1']] none).1 [['1'], ['2']] (by decide)

/-- C2 (amended): partial_cmp signals incomparable exactly on NaN, and the numeric
and suffix comparators return a result whenever neither parsed key is NaN.  (As
literally stated the claim fails: the parsers do produce NaN, e.g. for the key nan,
and the comparison then panics, see the counterexample.) -/
theorem C2_comparator_totality (col : Option ℕ) (a b : List Char) :
    (∀ x y : F64, F64.partialCmp x y = none ↔ x = F64.nan ∨ y = F64.nan) ∧
    (numKey a col ≠ F64.nan → numKey b col ≠ F64.nan → (numCmp col a b).isSome = true) ∧
    (∀ va vb, suffixKeyP a col = some va → suffixKeyP b col = some vb →
      va ≠ F64.nan → vb ≠ F64.nan → (suffixCmp col a b).isSome = true) := by
  refine ⟨F64.partialCmp_none_iff, ?_, ?_⟩
  · intro hna hnb
    rcases h : numCmp col a b with _ | o
    · rcases (F64.partialCmp_none_iff _ _).mp h with h1 | h1
      · exact absurd h1 hna
      · exact absurd h1 hnb
    · rfl
  · intro va vb hva hvb hna hnb
    simp only [suffixCmp, hva, hvb]
    rcases h : F64.partialCmp va vb with _ | o
    · rcases (F64.partialCmp_none_iff _ _).mp h with h1 | h1
      · exact absurd h1 hna
      · exact absurd h1 hnb
    · rfl

/-- C2 counterexample: the plain parser maps the key nan to NaN, and both the
numeric and the suffix comparator then signal incomparable (the unwrap panics). -/
theorem C2_cex :
    parseF64 ['n', 'a', 'n'] = some F64.nan ∧
    numCmp none ['n', 'a', 'n'] ['0'] = none ∧
    suffixCmp none ['n', 'a', 'n', 'K'] ['3'] = none := by decide

/-- Witness for C2_comparator_totality at a concrete input. -/
theorem C2_comparator_totality_witness : (numCmp none ['1'] ['2']).isSome = true :=
  (C2_comparator_totality none ['1'] ['2']).2.1 (by decide) (by decide)

/-- Transitivity through the sentinel: a value strictly above f64::MIN stays
strictly above it along a Less-or-Equal comparison step. -/
theorem F64.min_lt_step (x y : F64)
    (hmx : f64MIN.partialCmp x = some Ordering.lt)
    (hxy : x.partialCmp y = some Ordering.lt ∨ x.partialCmp y = some Ordering.eq) :
    f64MIN.partialCmp y = some Ordering.lt := by
  cases x with
  | nan => simp [f64MIN, F64.partialCmp] at hmx
  | neginf => simp [f64MIN, F64.partialCmp] at hmx
  | posinf =>
    rcases y with _ | _ | ⟨mb, eb⟩ | _
    · rcases hxy with h | h <;> simp [F64.partialCmp] at h
    · rcases hxy with h | h <;> simp [F64.partialCmp] at h
    · rcases hxy with h | h <;> simp [F64.partialCmp] at h
    · simp [f64MIN, F64.partialCmp]
  | finite ma ea =>
    have hma : f64MINm * 10 ^ ea < ma * 10 ^ (0 : ℕ) := by
      simp only [f64MIN, F64.partialCmp] at hmx
      split_ifs at hmx with h1 h2
      · exact h1
      · exact absurd hmx (by simp)
      · exact absurd hmx (by simp)
    rcases y with _ | _ | ⟨mb, eb⟩ | _
    · rcases hxy with h | h <;> simp [F64.partialCmp] at h
    · rcases hxy with h | h <;> simp [F64.partialCmp] at h
    · have hab : ma * 10 ^ eb ≤ mb * 10 ^ ea := by
        rcases hxy with h | h
        · simp only [F64.partialCmp] at h
          split_ifs at h with h1 h2
          · exact le_of_lt h1
          · exact absurd h (by simp)
          · exact absurd h (by simp)
        · simp only [F64.partialCmp] at h
          split_ifs at h with h1 h2
          · exact absurd h (by simp)
          · exact absurd h (by simp)
          · exact not_lt.mp h2
      have h1 : f64MINm * 10 ^ ea * 10 ^ eb < ma * 10 ^ eb := by
        have hma' : f64MINm * 10 ^ ea < ma := by simpa using hma
        exact mul_lt_mul_of_pos_right hma' (by positivity)
      have h2 : f64MINm * 10 ^ eb * 10 ^ ea < mb * 10 ^ ea := by
        calc f64MINm * 10 ^ eb * 10 ^ ea = f64MINm * 10 ^ ea * 10 ^ eb := by ring
        _ < ma * 10 ^ eb := h1
        _ ≤ mb * 10 ^ ea := hab
      have h3 : f64MINm * 10 ^ eb < mb := lt_of_mul_lt_mul_right h2 (by positivity)
      have hgoal : f64MINm * 10 ^ eb < mb * 10 ^ (0 : ℕ) := by simpa using h3
      simp only [f64MIN, F64.partialCmp, if_pos hgoal]
    · simp [f64MIN, F64.partialCmp]

/-- The key-level form of the sentinel transitivity step. -/
theorem numKey_above_min_step (col : Option ℕ) (a b : List Char)
    (hR : cmpOk (numCmp col) a b) (ha : F64.lt f64MIN (numKey a col) = true) :
    F64.lt f64MIN (numKey b col) = true :=
  decide_eq_true (F64.min_lt_step (numKey a col) (numKey b col) (of_decide_eq_true ha) hR)

/-- A predicate preserved by each chain step propagates from the head to every
later element. -/
theorem chain_pred_from_head {α : Type} (R : α → α → Prop) (P : α → Prop)
    (hstep : ∀ a b, R a b → P a → P b) :
    ∀ (t : List α) (x : α), List.Chain' R (x :: t) → P x →
      ∀ n b, t.get? n = some b → P b
  | [], _, _, _, n, b, hb => by simp at hb
  | y :: t', x, hch, hx, n, b, hb => by
    rcases List.chain'_cons.mp hch with ⟨hxy, hch'⟩
    have hy : P y := hstep x y hxy hx
    cases n with
    | zero =>
      simp only [List.get?_cons_zero, Option.some.injEq] at hb
      subst hb
      exact hy
    | succ m =>
      exact chain_pred_from_head R P hstep t' y hch' hy m b (by simpa using hb)

/-- A predicate preserved by each chain step propagates forward along indices. -/
theorem chain_pred_mono {α : Type} (R : α → α → Prop) (P : α → Prop)
    (hstep : ∀ a b, R a b → P a → P b) :
    ∀ (l : List α) (i j : ℕ) (a b : α), List.Chain' R l → l.get? i = some a →
      l.get? j = some b → i < j → P a → P b
  | [], _, _, _, _, _, ha, _, _, _ => by simp at ha
  | x :: t, i, j, a, b, hch, ha, hb, hij, hpa => by
    cases i with
    | zero =>
      simp only [List.get?_cons_zero, Option.some.injEq] at ha
      subst ha
      cases j with
      | zero => omega
      | succ n => exact chain_pred_from_head R P hstep t x hch hpa n b (by simpa using hb)
    | succ m =>
      cases j with
      | zero => omega
      | succ n =>
        rcases t with _ | ⟨y, t'⟩
        · simp at ha
        · exact chain_pred_mono R P hstep (y :: t') m n a b (List.Chain'.tail hch)
            (by simpa using ha) (by simpa using hb) (by omega) hpa

/-- C4 (amended): an unparseable key receives the f64::MIN sentinel (examples
42, -3.5, abc included, with their rational values); only negative infinity or a
value below f64::MIN can compare strictly below the sentinel; in any output the
numeric sort returns, once a key strictly above the sentinel occurs, every later
key is strictly above the sentinel too — so an unparseable key (whose key is the
sentinel itself) never follows one, i.e. unparseable keys sort before all keys
strictly above f64::MIN.  (As literally stated the claim fails: a key that parses
below the sentinel, such as -inf, sorts before every unparseable key, see the
counterexample.) -/
theorem C4_numeric_sentinel :
    (∀ s col, parseF64 (get_column_value s col) = none → numKey s col = f64MIN) ∧
    (numKey ['4', '2'] none = F64.finite 42 0 ∧ (F64.finite 42 0).ratVal = some (42 : ℚ)) ∧
    (numKey ['-', '3', '.', '5'] none = F64.finite (-35) 1 ∧
      (F64.finite (-35) 1).ratVal = some (-3.5 : ℚ)) ∧
    (numKey ['a', 'b', 'c'] none = f64MIN) ∧
    (∀ v : F64, F64.lt v f64MIN = true →
      v = F64.neginf ∨ ∃ m e, v = F64.finite m e ∧ (m : ℚ) / 10 ^ e < (f64MINm : ℚ)) ∧
    (∀ a b col, parseF64 (get_column_value a col) = none →
      F64.lt f64MIN (numKey b col) = true → sort_by_numeric [b, a] col = some [a, b]) ∧
    (∀ s col, parseF64 (get_column_value s col) = none →
      F64.lt f64MIN (numKey s col) = false) ∧
    (∀ lines col out i j a b, sort_by_numeric lines col = some out →
      out.get? i = some a → out.get? j = some b → i < j →
      F64.lt f64MIN (numKey a col) = true → F64.lt f64MIN (numKey b col) = true) := by
  refine ⟨?_, ⟨by decide, by norm_num [F64.ratVal]⟩, ⟨by decide, by norm_num [F64.ratVal]⟩,
    by decide, ?_, ?_, ?_, ?_⟩
  · intro s col h
    unfold numKey
    rw [h]
    rfl
  · intro v h
    cases v with
    | nan => exact absurd h (by decide)
    | posinf => exact absurd h (by decide)
    | neginf => exact Or.inl rfl
    | finite m e =>
      refine Or.inr ⟨m, e, rfl, ?_⟩
      have h' : F64.partialCmp (F64.finite m e) f64MIN = some Ordering.lt :=
        of_decide_eq_true h
      simp only [f64MIN, F64.partialCmp] at h'
      split_ifs at h' with h1 h2
      · rw [div_lt_iff₀ (by positivity)]
        have hq : (m : ℚ) * 10 ^ (0 : ℕ) < (f64MINm : ℚ) * 10 ^ e := by exact_mod_cast h1
        simpa using hq
      · exact absurd h' (by simp)
      · exact absurd h' (by simp)
  · intro a b col h hlt
    have hka : numKey a col = f64MIN := by unfold numKey; rw [h]; rfl
    have hgt : numCmp col b a = some Ordering.gt := by
      apply (F64.partialCmp_gt_iff _ _).mpr
      rw [hka]
      exact of_decide_eq_true hlt
    show sortPC (numCmp col) [b, a] = some [a, b]
    simp only [sortPC, insertPC, hgt]
  · intro s col h
    have hks : numKey s col = f64MIN := by unfold numKey; rw [h]; rfl
    rw [hks]
    decide
  · intro lines col out i j a b hsort hi hj hij hka
    have hch := sortPC_ok _ (fun a b => (numCmp_gt_iff col a b).mp) lines out hsort
    exact chain_pred_mono (cmpOk (numCmp col))
      (fun x => F64.lt f64MIN (numKey x col) = true)
      (fun x y hR hx => numKey_above_min_step col x y hR hx) out i j a b hch hi hj hij hka

/-- C4 counterexample: the key -inf parses successfully to negative infinity and
sorts (ascending) before the unparseable key abc, so unparseable keys do not sort
first on every input sequence. -/
theorem C4_cex :
    sort_by_numeric [['-', 'i', 'n', 'f'], ['a', 'b', 'c']] none =
      some [['-', 'i', 'n', 'f'], ['a', 'b', 'c']] ∧
    parseF64 ['-', 'i', 'n', 'f'] = some F64.neginf ∧
    parseF64 ['a', 'b', 'c'] = none := by decide

/-- Witness for C4_numeric_sentinel at a concrete input. -/
theorem C4_numeric_sentinel_witness :
    sort_by_numeric [['4', '2'], ['a', 'b', 'c']] none =
      some [['a', 'b', 'c'], ['4', '2']] :=
  C4_numeric_sentinel.2.2.2.2.2.1 ['a', 'b', 'c'] ['4', '2'] none (by decide) (by decide)

/-! Byte-length facts used by the suffix-parse claims. -/

/-- Every scalar value occupies at least one byte in UTF-8. -/
theorem utf8Size_pos (c : Char) : 1 ≤ utf8Size c := by
  unfold utf8Size
  split_ifs <;> omega

/-- Byte length of a string with one character appended. -/
theorem byteLen_concat (s : List Char) (c : Char) :
    byteLen (s ++ [c]) = byteLen s + utf8Size c := by
  simp [byteLen]

/-- A nonempty string has positive byte length. -/
theorem byteLen_pos (s : List Char) (h : s ≠ []) : 1 ≤ byteLen s := by
  cases s with
  | nil => exact absurd rfl h
  | cons c t =>
    have := utf8Size_pos c
    simp only [byteLen, List.map_cons, List.sum_cons]
    omega

/-- A string of byte length one is a single one-byte character. -/
theorem byteLen_eq_one (s : List Char) (h : byteLen s = 1) :
    ∃ c, s = [c] ∧ utf8Size c = 1 := by
  cases s with
  | nil => simp [byteLen] at h
  | cons c t =>
    cases t with
    | nil =>
      refine ⟨c, rfl, ?_⟩
      simpa [byteLen] using h
    | cons d t2 =>
      exfalso
      have h1 := utf8Size_pos c
      have h2 := utf8Size_pos d
      simp only [byteLen, List.map_cons, List.sum_cons] at h
      omega

/-- C5 (amended): suffix parse of the empty string is the f64::MIN sentinel; of a
single one-byte character it is the plain parse with the sentinel on failure; of a
longer string ending in a one-byte character it is the plain parse of everything
but that character (fallback 0.0, not the sentinel) scaled by 1000 / 1000000 /
1000000000 for K/M/G and unscaled for any other final character; with the spec's
examples.  (As literally stated the claim fails for strings whose final character
is multi-byte, where the code panics instead, see the counterexample.) -/
theorem C5_suffix_parse :
    (parse_with_suffix [] = some f64MIN) ∧
    (∀ c, utf8Size c = 1 → parse_with_suffix [c] = some ((parseF64 [c]).getD f64MIN)) ∧
    (∀ s c, utf8Size c = 1 → s ≠ [] →
      parse_with_suffix (s ++ [c]) =
        some (if c = 'K' ∨ c = 'k' then ((parseF64 s).getD (F64.finite 0 0)).scale 1000
              else if c = 'M' ∨ c = 'm' then ((parseF64 s).getD (F64.finite 0 0)).scale 1000000
              else if c = 'G' ∨ c = 'g' then
                ((parseF64 s).getD (F64.finite 0 0)).scale 1000000000
              else (parseF64 s).getD (F64.finite 0 0))) ∧
    (parse_with_suffix ['5', 'K'] = some (F64.finite 5000 0) ∧
      (F64.finite 5000 0).ratVal = some (5000 : ℚ)) ∧
    (parse_with_suffix ['2', '.', '5', 'M'] = some (F64.finite 25000000 1) ∧
      (F64.finite 25000000 1).ratVal = some (2500000 : ℚ)) ∧
    (parse_with_suffix ['9'] = some (F64.finite 9 0)) ∧
    (parse_with_suffix ['7', 'X'] = some (F64.finite 7 0)) := by
  refine ⟨by decide, ?_, ?_, ⟨by decide, by norm_num [F64.ratVal]⟩,
    ⟨by decide, by norm_num [F64.ratVal]⟩, by decide, by decide⟩
  · intro c h
    have hb : byteLen [c] = 1 := by simpa [byteLen] using h
    simp [parse_with_suffix, hb]
  · intro s c h1 hne
    have hb : byteLen (s ++ [c]) = byteLen s + utf8Size c := byteLen_concat s c
    have hpos := byteLen_pos s hne
    have h0 : ¬ byteLen (s ++ [c]) = 0 := by omega
    have hone : ¬ byteLen (s ++ [c]) = 1 := by omega
    simp only [parse_with_suffix, h0, if_false, hone, List.getLast?_concat, h1, if_true,
      List.dropLast_concat]

/-- C5 counterexample: for the single-character key with a two-byte character the
claim predicts the plain parse or the sentinel, but the byte slice panics. -/
theorem C5_cex :
    parse_with_suffix [Char.ofNat 233] = none ∧
    (parseF64 [Char.ofNat 233]).getD f64MIN = f64MIN := by decide

/-- Witness for C5_suffix_parse at a concrete input. -/
theorem C5_suffix_parse_witness :
    parse_with_suffix ['5', 'K'] =
      some (((parseF64 ['5']).getD (F64.finite 0 0)).scale 1000) := by
  have h := C5_suffix_parse.2.2.1 ['5'] 'K' (by decide) (by decide)
  simpa using h

/-- C10: parse_with_suffix panics (returns no value) exactly on the keys of byte
length at least two whose final character is multi-byte, where the byte slice at
len - 1 falls inside the final character; on every other key it returns a value. -/
theorem C10_suffix_slice_panic :
    (∀ s c, s.getLast? = some c → 2 ≤ byteLen s → 2 ≤ utf8Size c →
      parse_with_suffix s = none) ∧
    (∀ s c, s.getLast? = some c → utf8Size c = 1 → (parse_with_suffix s).isSome = true) ∧
    ((parse_with_suffix []).isSome = true) := by
  refine ⟨?_, ?_, by decide⟩
  · intro s c hlast hlen hsz
    have h0 : ¬ byteLen s = 0 := by omega
    have hone : ¬ byteLen s = 1 := by omega
    have hsz1 : ¬ utf8Size c = 1 := by omega
    simp only [parse_with_suffix, h0, if_false, hone, hlast, hsz1]
  · intro s c hlast hsz
    by_cases h0 : byteLen s = 0
    · exfalso
      have hne : s ≠ [] := fun he => by rw [he] at hlast; exact Option.noConfusion hlast
      have := byteLen_pos s hne
      omega
    · by_cases hone : byteLen s = 1
      · simp [parse_with_suffix, h0, hone]
      · simp [parse_with_suffix, h0, hone, hlast, hsz]

/-- Witness for C10_suffix_slice_panic at concrete inputs. -/
theorem C10_suffix_slice_panic_witness :
    parse_with_suffix ['1', Char.ofNat 233] = none ∧
    (parse_with_suffix ['5', 'K']).isSome = true :=
  ⟨C10_suffix_slice_panic.1 ['1', Char.ofNat 233] (Char.ofNat 233) (by decide) (by decide)
      (by decide),
    C10_suffix_slice_panic.2.1 ['5', 'K'] 'K' (by decide) (by decide)⟩

/-! Month scan facts. -/

/-- When no candidate month is contained in the key, the scan returns 13. -/
theorem monthScan_of_none (s : List Char) :
    ∀ (L : List (List Char)) (i : ℕ), (∀ m ∈ L, containsSub m s = false) →
      monthScan s L i = 13
  | [], _, _ => rfl
  | m :: ms, i, h => by
    have hm : containsSub m s = false := h m (List.mem_cons_self m ms)
    simp only [monthScan, hm, Bool.false_eq_true, if_false]
    exact monthScan_of_none s ms (i + 1) (fun x hx => h x (List.mem_cons_of_mem m hx))

/-- The scan returns the running index plus the position of the first contained
candidate. -/
theorem monthScan_of_found (s : List Char) :
    ∀ (L : List (List Char)) (i j : ℕ) (m : List Char),
      L.get? j = some m → containsSub m s = true →
      (∀ k m', k < j → L.get? k = some m' → containsSub m' s = false) →
      monthScan s L i = i + j
  | [], _, j, m, hget, _, _ => by simp at hget
  | m0 :: ms, i, j, m, hget, hc, hmin => by
    cases j with
    | zero =>
      simp only [List.get?_cons_zero, Option.some.injEq] at hget
      subst hget
      simp [monthScan, hc]
    | succ jn =>
      have h0 : containsSub m0 s = false := hmin 0 m0 (Nat.succ_pos jn) rfl
      simp only [monthScan, h0, Bool.false_eq_true, if_false]
      have hrec := monthScan_of_found s ms (i + 1) jn m (by simpa using hget) hc
        (fun k m' hk hg => hmin (k + 1) m' (by omega) (by simpa using hg))
      rw [hrec]
      omega

/-- When some candidate is contained, the scan stays below index-plus-length. -/
theorem monthScan_lt_of_found (s : List Char) :
    ∀ (L : List (List Char)) (i : ℕ) (m : List Char), m ∈ L → containsSub m s = true →
      monthScan s L i < i + L.length
  | [], _, m, hm, _ => absurd hm (List.not_mem_nil m)
  | m0 :: ms, i, m, hm, hc => by
    rcases h0 : containsSub m0 s with _ | _
    · simp only [monthScan, h0, Bool.false_eq_true, if_false]
      rcases List.mem_cons.mp hm with he | hin
      · subst he; exact absurd hc (by simp [h0])
      · have := monthScan_lt_of_found s ms (i + 1) m hin hc
        simp only [List.length_cons]
        omega
    · simp only [monthScan, h0, if_true, List.length_cons]
      omega

/-- C6: the month key is the 0-based index of the first month abbreviation of
MONTHS contained as a substring in the key, and 13 when none is contained; every
real month index is below 13, so non-matching keys sort after all recognized
months in ascending order; with the spec's examples (a key containing September
matches Sep, rank 8). -/
theorem C6_month_rank (s : List Char) :
    (monthPos s = 13 ↔ ∀ m ∈ MONTHS, containsSub m s = false) ∧
    (∀ j m, MONTHS.get? j = some m → containsSub m s = true →
      (∀ k m', k < j → MONTHS.get? k = some m' → containsSub m' s = false) →
      monthPos s = j) ∧
    (∀ m ∈ MONTHS, containsSub m s = true → monthPos s < 13) ∧
    (monthPos ['S', 'e', 'p', 't', 'e', 'm', 'b', 'e', 'r'] = 8) ∧
    (monthPos ['S', 'e', 'p', ' ', '2', '0', '2', '1'] = 8) ∧
    (monthPos ['n', 'o', ' ', 'm', 'o', 'n', 't', 'h', ' ', 'h', 'e', 'r', 'e'] = 13) := by
  have hlen : MONTHS.length = 12 := rfl
  refine ⟨⟨?_, fun h => monthScan_of_none s MONTHS 0 h⟩, ?_, ?_, by decide, by decide,
    by decide⟩
  · intro h13 m hm
    rcases hcs : containsSub m s with _ | _
    · rfl
    · exfalso
      have hlt := monthScan_lt_of_found s MONTHS 0 m hm hcs
      rw [hlen] at hlt
      have h13' : monthScan s MONTHS 0 = 13 := h13
      omega
  · intro j m hget hc hmin
    have := monthScan_of_found s MONTHS 0 j m hget hc hmin
    simpa [monthPos] using this
  · intro m hm hc
    have hlt := monthScan_lt_of_found s MONTHS 0 m hm hc
    rw [hlen] at hlt
    show monthScan s MONTHS 0 < 13
    omega

/-- Witness for C6_month_rank at a concrete input. -/
theorem C6_month_rank_witness : monthPos ['x', 'y', 'z'] = 13 :=
  (C6_month_rank ['x', 'y', 'z']).1.mpr (by decide)

/-- When every key parses, the suffix check equals the pure adjacent-pair scan over
the parsed keys. -/
theorem check_suffix_eq (col : Option ℕ) (rev : Bool) :
    ∀ lines : List (List Char), (∀ x ∈ lines, (suffixKeyP x col).isSome = true) →
      check_sorted_by_suffix lines col rev =
        some (checkPairs (fun p c => if rev then F64.lt (suffixKeyD p col) (suffixKeyD c col)
          else F64.lt (suffixKeyD c col) (suffixKeyD p col)) lines)
  | [] => fun _ => rfl
  | [_] => fun _ => rfl
  | a :: b :: t => fun h => by
    obtain ⟨va, hva⟩ := Option.isSome_iff_exists.mp (h a (by simp))
    obtain ⟨vb, hvb⟩ := Option.isSome_iff_exists.mp (h b (by simp))
    have ih := check_suffix_eq col rev (b :: t) (fun x hx => h x (by simp [List.mem_cons.mp hx]))
    have hda : suffixKeyD a col = va := by simp [suffixKeyD, hva]
    have hdb : suffixKeyD b col = vb := by simp [suffixKeyD, hvb]
    show checkPairsP (suffixBad col rev) (a :: b :: t) = _
    rcases hbool : (if rev then F64.lt va vb else F64.lt vb va) with _ | _
    · simp only [checkPairsP, suffixBad, hva, hvb, hbool, checkPairs, hda, hdb,
        Bool.not_false, Bool.true_and]
      exact ih
    · simp only [checkPairsP, suffixBad, hva, hvb, hbool, checkPairs, hda, hdb,
        Bool.not_true, Bool.false_and]

/-- C7 (amended): each check form scans adjacent pairs and returns true exactly
when no pair violates the order of the mode (ascending, reversed = false: a strict
key decrease; descending, reversed = true: a strict key increase; equal adjacent
keys permitted), in particular it returns true on every empty or single-element
sequence; for the suffix mode this holds whenever every key parses.  (As literally
stated the claim fails: the suffix check panics on a key whose final character is
multi-byte instead of returning a verdict, see the counterexample.) -/
theorem C7_check_semantics (lines : List (List Char)) (col : Option ℕ) (rev : Bool) :
    (check_sorted_by_numeric lines col rev = true ↔
      ∀ i p c, lines.get? i = some p → lines.get? (i + 1) = some c →
        (if rev then F64.lt (numKey p col) (numKey c col)
         else F64.lt (numKey c col) (numKey p col)) = false) ∧
    (check_sorted_by_month lines col rev = true ↔
      ∀ i p c, lines.get? i = some p → lines.get? (i + 1) = some c →
        (if rev then decide (monthKey p col < monthKey c col)
         else decide (monthKey c col < monthKey p col)) = false) ∧
    ((∀ x ∈ lines, (suffixKeyP x col).isSome = true) →
      (check_sorted_by_suffix lines col rev = some true ↔
        ∀ i p c, lines.get? i = some p → lines.get? (i + 1) = some c →
          (if rev then F64.lt (suffixKeyD p col) (suffixKeyD c col)
           else F64.lt (suffixKeyD c col) (suffixKeyD p col)) = false)) ∧
    (check_sorted_by_numeric [] col rev = true ∧
      ∀ a, check_sorted_by_numeric [a] col rev = true) ∧
    (check_sorted_by_month [] col rev = true ∧
      ∀ a, check_sorted_by_month [a] col rev = true) ∧
    (check_sorted_by_suffix [] col rev = some true ∧
      ∀ a, check_sorted_by_suffix [a] col rev = some true) := by
  refine ⟨checkPairs_iff _ lines, checkPairs_iff _ lines, ?_, ⟨rfl, fun _ => rfl⟩,
    ⟨rfl, fun _ => rfl⟩, ⟨rfl, fun _ => rfl⟩⟩
  intro h
  rw [check_suffix_eq col rev lines h, Option.some.injEq]
  exact checkPairs_iff _ lines

/-- C7 counterexample: on a sequence whose first key ends in a multi-byte
character the suffix check panics, returning neither true nor false. -/
theorem C7_cex :
    check_sorted_by_suffix [['5', Char.ofNat 233], ['1']] none false = none := by decide

/-- Witness for C7_check_semantics at a concrete input. -/
theorem C7_check_semantics_witness :
    F64.lt (numKey ['2'] none) (numKey ['1'] none) = false :=
  ((C7_check_semantics [['1'], ['2']] none false).1.mp (by decide)) 0 ['1'] ['2'] rfl rfl

/-! Column extraction facts. -/

/-- Every token the splitter emits is nonempty and contains no whitespace, given
that the accumulator contains no whitespace. -/
theorem splitWSGo_tokens :
    ∀ (l acc : List Char), (∀ ch ∈ acc, rustWS ch = false) →
      ∀ t ∈ splitWSGo l acc, t ≠ [] ∧ ∀ ch ∈ t, rustWS ch = false
  | [], acc, hacc, t, ht => by
    by_cases h : acc = []
    · simp [splitWSGo, h] at ht
    · simp only [splitWSGo, h, if_false, List.mem_singleton] at ht
      subst ht
      refine ⟨by simpa using h, ?_⟩
      intro ch hch
      exact hacc ch (by simpa using hch)
  | c :: r, acc, hacc, t, ht => by
    rcases hw : rustWS c with _ | _
    · simp only [splitWSGo, hw, Bool.false_eq_true, if_false] at ht
      refine splitWSGo_tokens r (c :: acc) ?_ t ht
      intro ch hch
      rcases List.mem_cons.mp hch with he | hin
      · subst he; exact hw
      · exact hacc ch hin
    · by_cases h : acc = []
      · simp only [splitWSGo, hw, if_true, h, if_true] at ht
        exact splitWSGo_tokens r [] (by simp) t ht
      · simp only [splitWSGo, hw, if_true, h, if_false, List.mem_cons] at ht
        rcases ht with he | hin
        · subst he
          refine ⟨by simpa using h, ?_⟩
          intro ch hch
          exact hacc ch (by simpa using hch)
        · exact splitWSGo_tokens r [] (by simp) t hin

/-- Column 0 wraps to the largest usize index. -/
theorem usizeIdx_zero : usizeIdx 0 = 2 ^ 64 - 1 := by decide

/-- For the real usize range, col - 1 is ordinary subtraction. -/
theorem usizeIdx_of_pos (n : ℕ) (h1 : 1 ≤ n) (h2 : n < 2 ^ 64) : usizeIdx n = n - 1 := by
  unfold usizeIdx
  have hp : (2 : ℕ) ^ 64 = 18446744073709551616 := by norm_num
  rw [hp] at h2 ⊢
  omega

/-- C3: column extraction is total; no column returns the whole line unchanged; a
present 1-based column within the token count returns that whitespace token (the
splitter emits nonempty, whitespace-free tokens); column 0 (whose usize col - 1
wraps to 2^64 - 1) and any column beyond the token count fall back to the whole
line; with the spec's examples.  The bounds n < 2^64 and token count < 2^64 hold
for every real usize value and every real string. -/
theorem C3_column_extraction (line : List Char) :
    (get_column_value line none = line) ∧
    (∀ t ∈ splitWS line, t ≠ [] ∧ ∀ ch ∈ t, rustWS ch = false) ∧
    (∀ n t, 1 ≤ n → n < 2 ^ 64 → nthOpt (splitWS line) (n - 1) = some t →
      get_column_value line (some n) = t) ∧
    ((splitWS line).length < 2 ^ 64 → get_column_value line (some 0) = line) ∧
    (∀ n, (splitWS line).length < n → n < 2 ^ 64 → get_column_value line (some n) = line) ∧
    (get_column_value ['a', ' ', 'b', ' ', 'c'] (some 2) = ['b']) ∧
    (get_column_value ['a', ' ', 'b', ' ', 'c'] (some 5) = ['a', ' ', 'b', ' ', 'c']) := by
  have hp : (2 : ℕ) ^ 64 = 18446744073709551616 := by norm_num
  refine ⟨rfl, fun t ht => splitWSGo_tokens line [] (by simp) t ht, ?_, ?_, ?_,
    by decide, by decide⟩
  · intro n t h1 h2 hget
    simp only [get_column_value, usizeIdx_of_pos n h1 h2, hget, Option.getD_some]
  · intro hlen
    have hnone : nthOpt (splitWS line) (2 ^ 64 - 1) = none := by
      unfold nthOpt
      rw [dif_neg]
      rw [hp] at hlen ⊢
      omega
    simp only [get_column_value, usizeIdx_zero, hnone, Option.getD_none]
  · intro n hlt h2
    rcases Nat.eq_zero_or_pos n with h0 | h1
    · subst h0
      omega
    · have hnone : nthOpt (splitWS line) (n - 1) = none := by
        unfold nthOpt
        rw [dif_neg]
        omega
      simp only [get_column_value, usizeIdx_of_pos n h1 h2, hnone, Option.getD_none]

/-- Witness for C3_column_extraction at a concrete input. -/
theorem C3_column_extraction_witness :
    get_column_value ['a', ' ', 'b', ' ', 'c'] (some 7) = ['a', ' ', 'b', ' ', 'c'] :=
  (C3_column_extraction ['a', ' ', 'b', ' ', 'c']).2.2.2.2.1 7 (by decide) (by decide)

/-! Dedup and pipeline facts. -/

/-- The worker of Vec::dedup keeps, after the pending element, exactly the later
elements that differ from their immediate predecessor. -/
theorem dedupGo_eq {α : Type} [DecidableEq α] :
    ∀ (t : List α) (a : α),
      dedupGo a t =
        a :: ((t.zip (a :: t)).filter (fun p => decide (p.1 ≠ p.2))).map Prod.fst
  | [], a => by simp [dedupGo]
  | b :: t, a => by
    by_cases h : a = b
    · subst h
      rw [show dedupGo a (a :: t) = dedupGo a t from by simp [dedupGo]]
      rw [dedupGo_eq t a]
      simp [List.filter_cons]
    · rw [show dedupGo a (b :: t) = a :: dedupGo b t from by simp [dedupGo, h]]
      rw [dedupGo_eq t b]
      have h' : b ≠ a := Ne.symm h
      simp [List.filter_cons, h']

/-- Vec::dedup agrees with the spec's formulation of the adjacent dedup. -/
theorem dedupAdj_eq_specDedup {α : Type} [DecidableEq α] :
    ∀ l : List α, dedupAdj l = specDedup l
  | [] => rfl
  | a :: t => by
    simp only [dedupAdj, specDedup]
    exact dedupGo_eq t a

/-- C8: the sort branch of main runs the mode sort, then (with -u) the adjacent
dedup — which removes a line exactly when it equals its immediate predecessor in
the current order, not a global dedup — then (with -r) a full reverse, and writes
the newline-joined lines to the file named sorted_ prefixed to the input name;
with the spec's dedup example. -/
theorem C8_pipeline (numeric month suffix unique reverse : Bool) (fname : List Char)
    (lines : List (List Char)) (col : Option ℕ) :
    mainSortRun numeric month suffix unique reverse fname lines col =
      specSortRun numeric month suffix unique reverse fname lines col ∧
    dedupAdj [['a'], ['a'], ['b'], ['a']] = [['a'], ['b'], ['a']] := by
  refine ⟨?_, by decide⟩
  unfold mainSortRun specSortRun
  rcases h : modeSort numeric month suffix lines col with _ | ls
  · rfl
  · simp [dedupAdj_eq_specDedup]

/-- C9: under the clap rules of main, an argument list containing -c is accepted
only when -M, -h and -n are all present simultaneously; any argument list with -c
but not all three is rejected before any sorting or checking code runs; in fact,
because of the conflict rules, -c is never accepted at all. -/
theorem C9_check_flag_grammar (f : Flags) :
    (f.c = true → argsValid f = true → f.M = true ∧ f.h = true ∧ f.n = true) ∧
    (f.c = true → ¬(f.M = true ∧ f.h = true ∧ f.n = true) → argsValid f = false) ∧
    (f.c = true → argsValid f = false) := by
  obtain ⟨n, r, u, M, b, c, h⟩ := f
  revert n r u M b c h
  decide

/-- Witness for C9_check_flag_grammar at a concrete input. -/
theorem C9_check_flag_grammar_witness :
    argsValid ⟨false, false, false, true, false, true, true⟩ = false :=
  (C9_check_flag_grammar ⟨false, false, false, true, false, true, true⟩).2.1 rfl (by decide)
